import Mathlib

/-!
Shallow embedding of `github-secrets-manager-rs` (src/secrets_manager.rs,
src/errors.rs, src/github_client.rs) for checking the specification's claims
about the reconciliation engine, the sync orchestrator and the key-decoding
step.  Rust `Vec` becomes `List`, `Option`/`Result` become `Option`/`Except`,
a `panic`/`unwrap`-on-`None` becomes an `Except.error` carrying a marker
distinct from every returned error value, and the remote GitHub API is a
record of per-name success flags; the sequence of outbound API calls is made
explicit as a trace.
-/

namespace GSM

/-- `SecretStatus` from src/secrets_manager.rs (`New` / `Existing` / `Deleted`). -/
inductive SecretStatus
  | New
  | Existing
  | Deleted
deriving DecidableEq, Repr

/-- `Secret` from src/secrets_manager.rs: a name, a plaintext value and an
optional lifecycle status (`None` until `update_secret_statuses` runs,
matching `#[serde(skip_deserializing)]`). -/
structure Secret where
  name : String
  value : String
  status : Option SecretStatus
deriving DecidableEq, Repr

/-- `ExistingSecret` as used by src/secrets_manager.rs (`get_secret_details`
reads `created_at` / `updated_at`; the spec's `ExistingSecretRef` likewise
carries both timestamps besides the name). -/
structure ExistingSecret where
  name : String
  created_at : String
  updated_at : String
deriving DecidableEq, Repr

/-- `PublicKeyResponse` from src/github_client.rs: opaque key id and the
base64-encoded key material. -/
structure PublicKeyResponse where
  key_id : String
  key : String
deriving DecidableEq, Repr

/-- `SecretDetails` from src/secrets_manager.rs. -/
structure SecretDetails where
  name : String
  value : String
  created_at : String
  updated_at : String
  status : SecretStatus
deriving DecidableEq, Repr

/-- `SecretsManager` from src/secrets_manager.rs, minus the borrowed
`GitHubClient` (the remote store is passed explicitly to the operations
that use it). -/
structure SecretsManager where
  secrets : List Secret
  existing_secrets : List ExistingSecret
  public_key : PublicKeyResponse
deriving DecidableEq, Repr

/-- `AppError` from src/errors.rs; each variant's payload is collapsed to its
display string.  Note the taxonomy has no `InvalidKey` variant. -/
inductive AppError
  | envVarNotFound (s : String)
  | secretsParseFailed (s : String)
  | gitHubApiError (s : String)
  | ioError (s : String)
  | base64DecodeError (s : String)
  | sodiumError (s : String)
  | unknown (s : String)
deriving DecidableEq, Repr

/-- First loop of `update_secret_statuses`: a desired secret is marked
`Existing` when some existing secret shares its name, else `New`. -/
def annotate (existing : List ExistingSecret) (s : Secret) : Secret :=
  if existing.any (fun ex => ex.name == s.name) then
    { s with status := some SecretStatus.Existing }
  else
    { s with status := some SecretStatus.New }

/-- Second loop of `update_secret_statuses`: for each existing secret whose
name is absent from the (already extended) secrets list, push a `Deleted`
entry with empty value.  The membership test reads the accumulator, exactly
as the Rust reads the mutated `self.secrets`. -/
def addDeleted (secrets : List Secret) (existing : List ExistingSecret) : List Secret :=
  existing.foldl
    (fun acc ex =>
      if acc.any (fun s => s.name == ex.name) then acc
      else acc ++ [{ name := ex.name, value := "", status := some SecretStatus.Deleted }])
    secrets

/-- `SecretsManager::update_secret_statuses` (src/secrets_manager.rs lines
57-77): annotate every held secret, then append `Deleted` entries. -/
def update_secret_statuses (m : SecretsManager) : SecretsManager :=
  { m with secrets := addDeleted (m.secrets.map (annotate m.existing_secrets)) m.existing_secrets }

/-- `SecretsManager::new` (src/secrets_manager.rs lines 41-55): store the
inputs and run `update_secret_statuses`. -/
def SecretsManager.new (secrets : List Secret) (existing_secrets : List ExistingSecret)
    (public_key : PublicKeyResponse) : SecretsManager :=
  update_secret_statuses
    { secrets := secrets, existing_secrets := existing_secrets, public_key := public_key }

/-- `SecretsManager::categorize_secrets` (src/secrets_manager.rs lines
119-140): one pass over `secrets`, pushing into the new / updated / to-delete
accumulators by status (a missing status falls through the `_ => {}` arm). -/
def categorize_secrets (m : SecretsManager) : List Secret × List Secret × List String :=
  m.secrets.foldl
    (fun acc s =>
      match s.status with
      | some SecretStatus.New => (acc.1 ++ [s], acc.2.1, acc.2.2)
      | some SecretStatus.Existing => (acc.1, acc.2.1 ++ [s], acc.2.2)
      | some SecretStatus.Deleted => (acc.1, acc.2.1, acc.2.2 ++ [s.name])
      | none => acc)
    ([], [], [])

/-- `SecretsManager::get_secret_details` (src/secrets_manager.rs lines
83-98).  Rust returns `Option<SecretDetails>` but `expect`s a present status;
the `expect` panic is modelled as `Except.error` with the Rust panic
message, out-of-range lookup as `Except.ok none`. -/
def get_secret_details (m : SecretsManager) (index : Nat) :
    Except String (Option SecretDetails) :=
  match m.secrets.get? index with
  | none => Except.ok none
  | some secret =>
    match secret.status with
    | none => Except.error "Secret status is missing"
    | some st =>
      let existing := m.existing_secrets.find? (fun s => s.name == secret.name)
      Except.ok (some
        { name := secret.name
          value :=
            if secret.status = some SecretStatus.Deleted then "Unknown (Deleted)"
            else secret.value
          created_at :=
            match existing with
            | none => "N/A"
            | some s => s.created_at
          updated_at :=
            match existing with
            | none => "N/A"
            | some s => s.updated_at
          status := st })

/-- Value of one character of the standard base64 alphabet. -/
def b64Val (c : Char) : Option Nat :=
  if 'A' ≤ c ∧ c ≤ 'Z' then some (c.toNat - 'A'.toNat)
  else if 'a' ≤ c ∧ c ≤ 'z' then some (c.toNat - 'a'.toNat + 26)
  else if '0' ≤ c ∧ c ≤ '9' then some (c.toNat - '0'.toNat + 52)
  else if c = '+' then some 62
  else if c = '/' then some 63
  else none

/-- Standard padded base64 decoding (the behaviour of
`base64::engine::general_purpose::STANDARD.decode`): the input is consumed
in groups of four alphabet characters, `=` padding is allowed only at the
very end, and non-zero trailing bits are rejected. -/
def base64DecodeGroups : List Char → Except String (List Nat)
  | [] => Except.ok []
  | c1 :: c2 :: c3 :: c4 :: rest =>
    match b64Val c1, b64Val c2 with
    | some v1, some v2 =>
      if c3 = '=' then
        if c4 = '=' ∧ rest = [] then
          if v2 % 16 = 0 then Except.ok [v1 * 4 + v2 / 16]
          else Except.error "Invalid last symbol"
        else Except.error "Invalid padding"
      else
        match b64Val c3 with
        | some v3 =>
          if c4 = '=' then
            if rest = [] then
              if v3 % 4 = 0 then Except.ok [v1 * 4 + v2 / 16, v2 % 16 * 16 + v3 / 4]
              else Except.error "Invalid last symbol"
            else Except.error "Invalid padding"
          else
            match b64Val c4 with
            | some v4 =>
              match base64DecodeGroups rest with
              | Except.ok tail =>
                Except.ok ((v1 * 4 + v2 / 16) :: (v2 % 16 * 16 + v3 / 4) :: (v3 % 4 * 64 + v4) :: tail)
              | Except.error e => Except.error e
            | none => Except.error "Invalid byte"
        | none => Except.error "Invalid byte"
    | _, _ => Except.error "Invalid byte"
  | _ => Except.error "Invalid input length"

/-- `general_purpose::STANDARD.decode` on a string. -/
def base64Decode (s : String) : Except String (List Nat) :=
  base64DecodeGroups s.data

/-- `box_::PublicKey::from_slice`: succeeds exactly on 32-byte input. -/
def publicKeyFromSlice (bytes : List Nat) : Option (List Nat) :=
  if bytes.length = 32 then some bytes else none

/-- How `decode_public_key` can fail: either the base64 decode fails and the
resulting `AppError` is returned through `?`, or `from_slice` yields `None`
and the `.unwrap()` panics (`unwrapNone` — not a returned error value). -/
inductive DecodeFailure
  | appError (e : AppError)
  | unwrapNone
deriving DecidableEq, Repr

/-- `SecretsManager::decode_public_key` (src/secrets_manager.rs lines
113-117): base64-decode the published key, then `from_slice(..).unwrap()`. -/
def decode_public_key (pk : PublicKeyResponse) : Except DecodeFailure (List Nat) :=
  match base64Decode pk.key with
  | Except.error msg => Except.error (DecodeFailure.appError (AppError.base64DecodeError msg))
  | Except.ok bytes =>
    match publicKeyFromSlice bytes with
    | some k => Except.ok k
    | none => Except.error DecodeFailure.unwrapNone

/-- The remote GitHub API (src/github_client.rs) as seen by the orchestrator:
whether `upsert_secret` / `delete_secret` succeeds for a given name. -/
structure RemoteStore where
  upsert_ok : String → Bool
  delete_ok : String → Bool

/-- One outbound API call made by the orchestrator. -/
inductive ApiCall
  | upsert (secret_name : String) (encrypted_value : String) (key_id : String)
  | delete (secret_name : String)
deriving DecidableEq, Repr

/-- Whether a call is a PUT to the secrets endpoint. -/
def ApiCall.isUpsert : ApiCall → Bool
  | ApiCall.upsert _ _ _ => true
  | ApiCall.delete _ => false

/-- The call `upsert_secrets` issues for one secret: name, sealed-and-encoded
value, key id.  `sealEnc` stands for `sealedbox::seal` followed by base64
encoding; the sealed-box itself draws an ephemeral key and is treated as an
opaque function of the plaintext for this run. -/
def upsertCall (sealEnc : String → String) (keyId : String) (s : Secret) : ApiCall :=
  ApiCall.upsert s.name (sealEnc s.value) keyId

/-- `SecretsManager::upsert_secrets` (src/secrets_manager.rs lines 170-186)
on an already-chained list: each iteration seals and issues the PUT; the `?`
on the call makes the first failure return immediately.  Result: the trace of
calls actually issued, and whether the whole loop returned `Ok`. -/
def upsert_secrets (sealEnc : String → String) (store : RemoteStore) (keyId : String) :
    List Secret → List ApiCall × Bool
  | [] => ([], true)
  | s :: rest =>
    if store.upsert_ok s.name then
      let r := upsert_secrets sealEnc store keyId rest
      (upsertCall sealEnc keyId s :: r.1, r.2)
    else ([upsertCall sealEnc keyId s], false)

/-- `SecretsManager::delete_secrets` (src/secrets_manager.rs lines 188-194):
one DELETE per name, `?` on each call. -/
def delete_secrets (store : RemoteStore) : List String → List ApiCall × Bool
  | [] => ([], true)
  | n :: rest =>
    if store.delete_ok n then
      let r := delete_secrets store rest
      (ApiCall.delete n :: r.1, r.2)
    else ([ApiCall.delete n], false)

/-- `SecretsManager::manage_secrets` (src/secrets_manager.rs lines 100-111):
decode the public key (any failure there aborts before any call), categorize,
print (pure output, no calls), upsert the new then the updated secrets, and
only if that whole phase succeeded, delete.  Result: the full call trace and
whether the run returned `Ok`. -/
def manage_secrets (sealEnc : String → String) (store : RemoteStore) (m : SecretsManager) :
    List ApiCall × Bool :=
  match decode_public_key m.public_key with
  | Except.error _ => ([], false)
  | Except.ok _ =>
    let cud := categorize_secrets m
    let r1 := upsert_secrets sealEnc store m.public_key.key_id (cud.1 ++ cud.2.1)
    if r1.2 then
      let r2 := delete_secrets store cud.2.2
      (r1.1 ++ r2.1, r2.2)
    else (r1.1, false)

/-- Helper for stating theorems: the names of `l` with the ones in `seen`
dropped and later duplicates dropped, keeping first occurrences in order.
This is the shape of the `Deleted` names the second loop of
`update_secret_statuses` appends. -/
def dedupFirstAux (seen : List String) : List String → List String
  | [] => []
  | n :: rest =>
    if n ∈ seen then dedupFirstAux seen rest
    else n :: dedupFirstAux (seen ++ [n]) rest

/-- Closed form of the second loop of `update_secret_statuses`: the `Deleted`
entries appended when the names in `seen` are already present. -/
def delTail (seen : List String) : List ExistingSecret → List Secret
  | [] => []
  | ex :: rest =>
    if ex.name ∈ seen then delTail seen rest
    else { name := ex.name, value := "", status := some SecretStatus.Deleted }
      :: delTail (seen ++ [ex.name]) rest

/-! ### Structural lemmas about the reconciliation engine -/

/-- Annotation never changes a secret's name. -/
theorem annotate_name (e : List ExistingSecret) (s : Secret) :
    (annotate e s).name = s.name := by
  unfold annotate; split <;> rfl

/-- The membership test of the first loop, read as list membership of names. -/
theorem any_ex_name (e : List ExistingSecret) (n : String) :
    (e.any fun ex => ex.name == n) = true ↔ n ∈ e.map (fun ex => ex.name) := by
  simp only [List.any_eq_true, beq_iff_eq, List.mem_map]

/-- The membership test of the second loop, read as list membership of names. -/
theorem any_secret_name (l : List Secret) (n : String) :
    (l.any fun s => s.name == n) = true ↔ n ∈ l.map (fun s => s.name) := by
  simp only [List.any_eq_true, beq_iff_eq, List.mem_map]

/-- One step of `delTail` on an already-seen name. -/
theorem delTail_cons_of_mem {seen : List String} {ex : ExistingSecret}
    {rest : List ExistingSecret} (h : ex.name ∈ seen) :
    delTail seen (ex :: rest) = delTail seen rest := by
  simp only [delTail]
  rw [if_pos h]

/-- One step of `delTail` on an unseen name. -/
theorem delTail_cons_of_not_mem {seen : List String} {ex : ExistingSecret}
    {rest : List ExistingSecret} (h : ex.name ∉ seen) :
    delTail seen (ex :: rest) =
      { name := ex.name, value := "", status := some SecretStatus.Deleted }
        :: delTail (seen ++ [ex.name]) rest := by
  simp only [delTail]
  rw [if_neg h]

/-- One step of `dedupFirstAux` on an already-seen name. -/
theorem dedupFirstAux_cons_of_mem {seen : List String} {x : String} {rest : List String}
    (h : x ∈ seen) :
    dedupFirstAux seen (x :: rest) = dedupFirstAux seen rest := by
  simp only [dedupFirstAux]
  rw [if_pos h]

/-- One step of `dedupFirstAux` on an unseen name. -/
theorem dedupFirstAux_cons_of_not_mem {seen : List String} {x : String} {rest : List String}
    (h : x ∉ seen) :
    dedupFirstAux seen (x :: rest) = x :: dedupFirstAux (seen ++ [x]) rest := by
  simp only [dedupFirstAux]
  rw [if_neg h]

/-- A desired secret whose name is among the existing names is annotated
`Existing`. -/
theorem annotate_of_mem {e : List ExistingSecret} {s : Secret}
    (h : s.name ∈ e.map (fun ex => ex.name)) :
    annotate e s = { s with status := some SecretStatus.Existing } := by
  unfold annotate
  rw [if_pos ((any_ex_name e s.name).mpr h)]

/-- A desired secret whose name is not among the existing names is annotated
`New`. -/
theorem annotate_of_not_mem {e : List ExistingSecret} {s : Secret}
    (h : s.name ∉ e.map (fun ex => ex.name)) :
    annotate e s = { s with status := some SecretStatus.New } := by
  unfold annotate
  rw [if_neg (fun hc => h ((any_ex_name e s.name).mp hc))]

/-- The second loop of `update_secret_statuses` in closed form: it appends
`delTail` of the names already present. -/
theorem addDeleted_eq (e : List ExistingSecret) :
    ∀ acc : List Secret,
      addDeleted acc e = acc ++ delTail (acc.map (fun s => s.name)) e := by
  induction e with
  | nil => intro acc; simp [addDeleted, delTail]
  | cons ex rest ih =>
    intro acc
    have hcons : addDeleted acc (ex :: rest) =
        addDeleted
          (if (acc.any fun s => s.name == ex.name) = true then acc
            else acc ++ [{ name := ex.name, value := "", status := some SecretStatus.Deleted }])
          rest := rfl
    by_cases hmem : ex.name ∈ acc.map (fun s => s.name)
    · have hstep : (acc.any fun s => s.name == ex.name) = true :=
        (any_secret_name acc ex.name).mpr hmem
      rw [hcons, if_pos hstep, ih acc, delTail_cons_of_mem hmem]
    · have hstep : ¬((acc.any fun s => s.name == ex.name) = true) :=
        fun hc => hmem ((any_secret_name acc ex.name).mp hc)
      rw [hcons, if_neg hstep, ih, delTail_cons_of_not_mem hmem]
      simp

/-- The secrets list of a freshly constructed manager: the desired list,
annotated in order, followed by the appended `Deleted` entries. -/
theorem new_secrets_eq (d : List Secret) (e : List ExistingSecret) (pk : PublicKeyResponse) :
    (SecretsManager.new d e pk).secrets =
      d.map (annotate e) ++ delTail (d.map (fun s => s.name)) e := by
  have hnames : (d.map (annotate e)).map (fun s => s.name) = d.map (fun s => s.name) := by
    rw [List.map_map]
    exact List.map_congr_left (fun s _ => annotate_name e s)
  show addDeleted (d.map (annotate e)) e = _
  rw [addDeleted_eq, hnames]

/-- `new` stores the public key unchanged. -/
theorem new_public_key (d : List Secret) (e : List ExistingSecret) (pk : PublicKeyResponse) :
    (SecretsManager.new d e pk).public_key = pk := by
  rfl

/-- Every appended entry is a `Deleted` entry with empty value whose name
comes from the existing list and is not already seen. -/
theorem delTail_mem (e : List ExistingSecret) :
    ∀ seen : List String, ∀ s ∈ delTail seen e,
      s.status = some SecretStatus.Deleted ∧ s.value = "" ∧
        s.name ∈ e.map (fun ex => ex.name) ∧ s.name ∉ seen := by
  induction e with
  | nil => intro seen s hs; simp [delTail] at hs
  | cons ex rest ih =>
    intro seen s hs
    by_cases hmem : ex.name ∈ seen
    · rw [delTail_cons_of_mem hmem] at hs
      obtain ⟨h1, h2, h3, h4⟩ := ih seen s hs
      exact ⟨h1, h2, by simp [h3], h4⟩
    · rw [delTail_cons_of_not_mem hmem] at hs
      rcases List.mem_cons.mp hs with hs | hs
      · subst hs; exact ⟨rfl, rfl, by simp, hmem⟩
      · obtain ⟨h1, h2, h3, h4⟩ := ih (seen ++ [ex.name]) s hs
        refine ⟨h1, h2, by simp [h3], fun hc => h4 ?_⟩
        simp [hc]

/-- The names of the appended `Deleted` entries, in order. -/
theorem delTail_map_name (e : List ExistingSecret) :
    ∀ seen : List String,
      (delTail seen e).map (fun s => s.name) =
        dedupFirstAux seen (e.map (fun ex => ex.name)) := by
  induction e with
  | nil => intro seen; simp [delTail, dedupFirstAux]
  | cons ex rest ih =>
    intro seen
    by_cases hmem : ex.name ∈ seen
    · rw [delTail_cons_of_mem hmem, List.map_cons, dedupFirstAux_cons_of_mem hmem, ih]
    · rw [delTail_cons_of_not_mem hmem]
      simp only [List.map_cons]
      rw [dedupFirstAux_cons_of_not_mem hmem, ih]

/-- Membership in the deduplicated delete-name list. -/
theorem dedupFirstAux_mem (l : List String) :
    ∀ seen : List String, ∀ n : String,
      n ∈ dedupFirstAux seen l ↔ n ∈ l ∧ n ∉ seen := by
  induction l with
  | nil => intro seen n; simp [dedupFirstAux]
  | cons x rest ih =>
    intro seen n
    by_cases hmem : x ∈ seen
    · rw [dedupFirstAux_cons_of_mem hmem, ih]
      constructor
      · rintro ⟨h1, h2⟩; exact ⟨List.mem_cons_of_mem x h1, h2⟩
      · rintro ⟨h1, h2⟩
        rcases List.mem_cons.mp h1 with h1 | h1
        · exact absurd (h1 ▸ hmem) h2
        · exact ⟨h1, h2⟩
    · rw [dedupFirstAux_cons_of_not_mem hmem]
      rw [List.mem_cons, ih]
      constructor
      · rintro (h | ⟨h1, h2⟩)
        · exact ⟨h ▸ List.mem_cons_self x rest, h ▸ hmem⟩
        · refine ⟨List.mem_cons_of_mem x h1, fun hc => h2 ?_⟩
          simp [hc]
      · rintro ⟨h1, h2⟩
        rcases List.mem_cons.mp h1 with h1 | h1
        · exact Or.inl h1
        · by_cases hx : n = x
          · exact Or.inl hx
          · refine Or.inr ⟨h1, fun hc => ?_⟩
            rcases List.mem_append.mp hc with hc | hc
            · exact h2 hc
            · exact hx (List.mem_singleton.mp hc)

/-- What is seen only matters up to membership of the processed names. -/
theorem dedupFirstAux_congr (l : List String) :
    ∀ seen1 seen2 : List String, (∀ x ∈ l, x ∈ seen1 ↔ x ∈ seen2) →
      dedupFirstAux seen1 l = dedupFirstAux seen2 l := by
  induction l with
  | nil => intro _ _ _; rfl
  | cons x rest ih =>
    intro seen1 seen2 h
    by_cases hmem : x ∈ seen1
    · rw [dedupFirstAux_cons_of_mem hmem,
        dedupFirstAux_cons_of_mem ((h x (List.mem_cons_self x rest)).mp hmem)]
      exact ih _ _ (fun y hy => h y (List.mem_cons_of_mem x hy))
    · rw [dedupFirstAux_cons_of_not_mem hmem,
        dedupFirstAux_cons_of_not_mem
          (fun hc => hmem ((h x (List.mem_cons_self x rest)).mpr hc))]
      refine congrArg _ (ih _ _ (fun y hy => ?_))
      have := h y (List.mem_cons_of_mem x hy)
      simp only [List.mem_append, List.mem_singleton]
      constructor
      · rintro (h1 | h1)
        · exact Or.inl (this.mp h1)
        · exact Or.inr h1
      · rintro (h1 | h1)
        · exact Or.inl (this.mpr h1)
        · exact Or.inr h1

/-- On a duplicate-free name list, deduplication only filters the seen
names. -/
theorem dedupFirstAux_of_nodup (l : List String) (hl : l.Nodup) :
    ∀ seen : List String,
      dedupFirstAux seen l = l.filter (fun n => !decide (n ∈ seen)) := by
  induction l with
  | nil => intro seen; rfl
  | cons x rest ih =>
    intro seen
    obtain ⟨hx, hrest⟩ := List.nodup_cons.mp hl
    by_cases hmem : x ∈ seen
    · rw [dedupFirstAux_cons_of_mem hmem, ih hrest, List.filter_cons]
      simp [hmem]
    · rw [dedupFirstAux_cons_of_not_mem hmem, List.filter_cons]
      simp only [hmem, decide_False, Bool.not_false, if_pos]
      refine congrArg _ ?_
      rw [dedupFirstAux_congr rest (seen ++ [x]) seen ?_, ih hrest]
      intro y hy
      simp only [List.mem_append, List.mem_singleton]
      constructor
      · rintro (h | h)
        · exact h
        · exact absurd (h ▸ hy) hx
      · exact Or.inl

/-- The deduplicated delete-name list has no duplicates. -/
theorem dedupFirstAux_nodup (l : List String) :
    ∀ seen : List String, (dedupFirstAux seen l).Nodup := by
  induction l with
  | nil => intro seen; simp [dedupFirstAux]
  | cons x rest ih =>
    intro seen
    by_cases hmem : x ∈ seen
    · rw [dedupFirstAux_cons_of_mem hmem]; exact ih seen
    · rw [dedupFirstAux_cons_of_not_mem hmem]
      refine List.nodup_cons.mpr ⟨fun hc => ?_, ih _⟩
      have := ((dedupFirstAux_mem rest _ x).mp hc).2
      simp at this

/-- The three-accumulator fold of `categorize_secrets`, in closed form. -/
theorem categorize_fold (l : List Secret) :
    ∀ acc : List Secret × List Secret × List String,
      l.foldl
        (fun acc s =>
          match s.status with
          | some SecretStatus.New => (acc.1 ++ [s], acc.2.1, acc.2.2)
          | some SecretStatus.Existing => (acc.1, acc.2.1 ++ [s], acc.2.2)
          | some SecretStatus.Deleted => (acc.1, acc.2.1, acc.2.2 ++ [s.name])
          | none => acc)
        acc =
      (acc.1 ++ l.filter (fun s => s.status == some SecretStatus.New),
       acc.2.1 ++ l.filter (fun s => s.status == some SecretStatus.Existing),
       acc.2.2 ++ (l.filter (fun s => s.status == some SecretStatus.Deleted)).map
          (fun s => s.name)) := by
  induction l with
  | nil => intro acc; simp
  | cons s rest ih =>
    intro acc
    rw [List.foldl_cons, ih]
    rcases hst : s.status with _ | st
    · simp [hst, List.filter_cons]
    · cases st <;> simp [hst, List.filter_cons]

/-- `categorize_secrets` in closed form: the status-filtered sublists of the
held secrets, orders preserved. -/
theorem categorize_eq (m : SecretsManager) :
    categorize_secrets m =
      (m.secrets.filter (fun s => s.status == some SecretStatus.New),
       m.secrets.filter (fun s => s.status == some SecretStatus.Existing),
       (m.secrets.filter (fun s => s.status == some SecretStatus.Deleted)).map
          (fun s => s.name)) := by
  unfold categorize_secrets
  rw [categorize_fold]
  simp

/-- The status an annotation gives, as a function of name membership. -/
theorem annotate_status (e : List ExistingSecret) (s : Secret) :
    (annotate e s).status =
      some (if s.name ∈ e.map (fun ex => ex.name) then SecretStatus.Existing
        else SecretStatus.New) := by
  by_cases h : s.name ∈ e.map (fun ex => ex.name)
  · rw [annotate_of_mem h, if_pos h]
  · rw [annotate_of_not_mem h, if_neg h]

/-- The create category of a freshly built manager: the desired entries whose
names are not among the existing names, in input order, each re-tagged
`New`. -/
theorem creates_eq (d : List Secret) (e : List ExistingSecret) (pk : PublicKeyResponse) :
    (categorize_secrets (SecretsManager.new d e pk)).1 =
      (d.filter (fun s => !decide (s.name ∈ e.map (fun ex => ex.name)))).map
        (fun s => { s with status := some SecretStatus.New }) := by
  rw [categorize_eq, new_secrets_eq, List.filter_append]
  have htail : (delTail (d.map (fun s => s.name)) e).filter
      (fun s => s.status == some SecretStatus.New) = [] := by
    rw [List.filter_eq_nil_iff]
    intro s hs
    have := (delTail_mem e _ s hs).1
    simp [this]
  rw [htail, List.append_nil, List.filter_map]
  have hpred : ∀ s ∈ d,
      ((fun s => s.status == some SecretStatus.New) ∘ annotate e) s =
        (fun s => !decide (s.name ∈ e.map (fun ex => ex.name))) s := by
    intro s _
    simp only [Function.comp_apply, annotate_status]
    by_cases h : s.name ∈ e.map (fun ex => ex.name) <;> simp [h]
  rw [List.filter_congr hpred]
  refine List.map_congr_left (fun s hs => ?_)
  have := (List.mem_filter.mp hs).2
  simp only [Bool.not_eq_true', decide_eq_false_iff_not] at this
  exact annotate_of_not_mem this

/-- The update category of a freshly built manager: the desired entries whose
names are among the existing names, in input order, each re-tagged
`Existing`. -/
theorem updates_eq (d : List Secret) (e : List ExistingSecret) (pk : PublicKeyResponse) :
    (categorize_secrets (SecretsManager.new d e pk)).2.1 =
      (d.filter (fun s => decide (s.name ∈ e.map (fun ex => ex.name)))).map
        (fun s => { s with status := some SecretStatus.Existing }) := by
  rw [categorize_eq, new_secrets_eq]
  dsimp only
  rw [List.filter_append]
  have htail : (delTail (d.map (fun s => s.name)) e).filter
      (fun s => s.status == some SecretStatus.Existing) = [] := by
    rw [List.filter_eq_nil_iff]
    intro s hs
    have := (delTail_mem e _ s hs).1
    simp [this]
  rw [htail, List.append_nil, List.filter_map]
  have hpred : ∀ s ∈ d,
      ((fun s => s.status == some SecretStatus.Existing) ∘ annotate e) s =
        (fun s => decide (s.name ∈ e.map (fun ex => ex.name))) s := by
    intro s _
    simp only [Function.comp_apply, annotate_status]
    by_cases h : s.name ∈ e.map (fun ex => ex.name) <;> simp [h]
  rw [List.filter_congr hpred]
  refine List.map_congr_left (fun s hs => ?_)
  have := (List.mem_filter.mp hs).2
  simp only [decide_eq_true_eq] at this
  exact annotate_of_mem this

/-- The delete category of a freshly built manager: the existing names not
among the desired names, first occurrences only, in input order. -/
theorem deletes_eq (d : List Secret) (e : List ExistingSecret) (pk : PublicKeyResponse) :
    (categorize_secrets (SecretsManager.new d e pk)).2.2 =
      dedupFirstAux (d.map (fun s => s.name)) (e.map (fun ex => ex.name)) := by
  rw [categorize_eq, new_secrets_eq]
  dsimp only
  rw [List.filter_append]
  have hhead : (d.map (annotate e)).filter
      (fun s => s.status == some SecretStatus.Deleted) = [] := by
    rw [List.filter_eq_nil_iff]
    intro s hs
    obtain ⟨t, _, rfl⟩ := List.mem_map.mp hs
    rw [annotate_status]
    by_cases h : t.name ∈ e.map (fun ex => ex.name) <;> simp [h]
  have htail : (delTail (d.map (fun s => s.name)) e).filter
      (fun s => s.status == some SecretStatus.Deleted) =
        delTail (d.map (fun s => s.name)) e := by
    rw [List.filter_eq_self]
    intro s hs
    have := (delTail_mem e _ s hs).1
    simp [this]
  rw [hhead, htail, List.nil_append, delTail_map_name]

/-! ### Lemmas about the orchestrator loops -/

/-- The upsert loop returns `Ok` exactly when the store accepts every name. -/
theorem upsert_secrets_ok (sealEnc : String → String) (store : RemoteStore) (keyId : String) :
    ∀ l : List Secret,
      (upsert_secrets sealEnc store keyId l).2 = l.all (fun s => store.upsert_ok s.name) := by
  intro l
  induction l with
  | nil => rfl
  | cons s rest ih =>
    by_cases h : store.upsert_ok s.name
    · simp [upsert_secrets, h, ih]
    · simp [upsert_secrets, h]

/-- When the upsert loop returns `Ok`, it has issued exactly one call per
secret, in order. -/
theorem upsert_secrets_trace_of_ok (sealEnc : String → String) (store : RemoteStore)
    (keyId : String) :
    ∀ l : List Secret, (upsert_secrets sealEnc store keyId l).2 = true →
      (upsert_secrets sealEnc store keyId l).1 = l.map (upsertCall sealEnc keyId) := by
  intro l
  induction l with
  | nil => intro _; rfl
  | cons s rest ih =>
    intro hok
    by_cases h : store.upsert_ok s.name
    · simp only [upsert_secrets, h, if_pos] at hok ⊢
      simp [ih hok]
    · simp [upsert_secrets, h] at hok

/-- The calls the upsert loop issues are always an initial segment of the
planned calls, in order. -/
theorem upsert_secrets_trace_initial (sealEnc : String → String) (store : RemoteStore)
    (keyId : String) :
    ∀ l : List Secret,
      (upsert_secrets sealEnc store keyId l).1 <+: l.map (upsertCall sealEnc keyId) := by
  intro l
  induction l with
  | nil => exact List.nil_prefix
  | cons s rest ih =>
    by_cases h : store.upsert_ok s.name
    · simp only [upsert_secrets, h, if_pos, List.map_cons]
      exact (List.prefix_cons_inj _).mpr ih
    · simp only [upsert_secrets, h, List.map_cons]
      simp only [Bool.false_eq_true, if_false]
      exact ⟨rest.map (upsertCall sealEnc keyId), rfl⟩

/-- Every call the upsert loop issues is a PUT. -/
theorem upsert_secrets_all_upsert (sealEnc : String → String) (store : RemoteStore)
    (keyId : String) :
    ∀ l : List Secret, ∀ c ∈ (upsert_secrets sealEnc store keyId l).1, c.isUpsert = true := by
  intro l
  induction l with
  | nil => intro c hc; simp [upsert_secrets] at hc
  | cons s rest ih =>
    intro c hc
    by_cases h : store.upsert_ok s.name
    · simp only [upsert_secrets, h, if_pos] at hc
      rcases List.mem_cons.mp hc with hc | hc
      · subst hc; rfl
      · exact ih c hc
    · simp only [upsert_secrets, h, Bool.false_eq_true, if_false] at hc
      rcases List.mem_cons.mp hc with hc | hc
      · subst hc; rfl
      · simp at hc

/-- Fail-fast shape of the upsert loop: if every secret before `f` is
accepted and `f` is refused, the loop stops right after the call for `f`. -/
theorem upsert_secrets_fail_fast (sealEnc : String → String) (store : RemoteStore)
    (keyId : String) :
    ∀ xs : List Secret, ∀ f : Secret, ∀ ys : List Secret,
      (∀ x ∈ xs, store.upsert_ok x.name = true) → store.upsert_ok f.name = false →
      upsert_secrets sealEnc store keyId (xs ++ f :: ys) =
        ((xs ++ [f]).map (upsertCall sealEnc keyId), false) := by
  intro xs
  induction xs with
  | nil =>
    intro f ys _ hf
    simp [upsert_secrets, hf]
  | cons x rest ih =>
    intro f ys hall hf
    have hx : store.upsert_ok x.name = true := hall x (List.mem_cons_self x rest)
    have := ih f ys (fun y hy => hall y (List.mem_cons_of_mem x hy)) hf
    simp only [List.cons_append, upsert_secrets, hx, if_pos, List.append_eq, this, List.map_cons]

/-- The delete loop returns `Ok` exactly when the store accepts every name. -/
theorem delete_secrets_ok (store : RemoteStore) :
    ∀ l : List String,
      (delete_secrets store l).2 = l.all (fun n => store.delete_ok n) := by
  intro l
  induction l with
  | nil => rfl
  | cons n rest ih =>
    by_cases h : store.delete_ok n
    · simp [delete_secrets, h, ih]
    · simp [delete_secrets, h]

/-- The calls the delete loop issues are always an initial segment of the
planned DELETE calls, in order. -/
theorem delete_secrets_trace_initial (store : RemoteStore) :
    ∀ l : List String, (delete_secrets store l).1 <+: l.map ApiCall.delete := by
  intro l
  induction l with
  | nil => exact List.nil_prefix
  | cons n rest ih =>
    by_cases h : store.delete_ok n
    · simp only [delete_secrets, h, if_pos, List.map_cons]
      exact (List.prefix_cons_inj _).mpr ih
    · simp only [delete_secrets, h, Bool.false_eq_true, if_false, List.map_cons]
      exact ⟨rest.map ApiCall.delete, rfl⟩

/-- Every call the delete loop issues is a DELETE. -/
theorem delete_secrets_all_delete (store : RemoteStore) :
    ∀ l : List String, ∀ c ∈ (delete_secrets store l).1, c.isUpsert = false := by
  intro l
  induction l with
  | nil => intro c hc; simp [delete_secrets] at hc
  | cons n rest ih =>
    intro c hc
    by_cases h : store.delete_ok n
    · simp only [delete_secrets, h, if_pos] at hc
      rcases List.mem_cons.mp hc with hc | hc
      · subst hc; rfl
      · exact ih c hc
    · simp only [delete_secrets, h, Bool.false_eq_true, if_false] at hc
      rcases List.mem_cons.mp hc with hc | hc
      · subst hc; rfl
      · simp at hc

/-- Fail-fast shape of the delete loop. -/
theorem delete_secrets_fail_fast (store : RemoteStore) :
    ∀ xs : List String, ∀ f : String, ∀ ys : List String,
      (∀ x ∈ xs, store.delete_ok x = true) → store.delete_ok f = false →
      delete_secrets store (xs ++ f :: ys) = ((xs ++ [f]).map ApiCall.delete, false) := by
  intro xs
  induction xs with
  | nil =>
    intro f ys _ hf
    simp [delete_secrets, hf]
  | cons x rest ih =>
    intro f ys hall hf
    have hx : store.delete_ok x = true := hall x (List.mem_cons_self x rest)
    have := ih f ys (fun y hy => hall y (List.mem_cons_of_mem x hy)) hf
    simp only [List.cons_append, delete_secrets, hx, if_pos, List.append_eq, this, List.map_cons]

/-- Splitting a trace whose first block satisfies `p` and whose second block
starts by falsifying `p` (or is empty): `takeWhile` recovers exactly the
first block and `dropWhile` the second. -/
theorem takeWhile_dropWhile_split (p : ApiCall → Bool) :
    ∀ t1 t2 : List ApiCall, (∀ x ∈ t1, p x = true) → (∀ x ∈ t2, p x = false) →
      (t1 ++ t2).takeWhile p = t1 ∧ (t1 ++ t2).dropWhile p = t2 := by
  intro t1
  induction t1 with
  | nil =>
    intro t2 _ h2
    cases t2 with
    | nil => exact ⟨rfl, rfl⟩
    | cons y ys =>
      have hy := h2 y (List.mem_cons_self y ys)
      constructor
      · simp [List.takeWhile_cons, hy]
      · simp [List.dropWhile_cons, hy]
  | cons x rest ih =>
    intro t2 h1 h2
    have hx := h1 x (List.mem_cons_self x rest)
    obtain ⟨ht, hd⟩ := ih t2 (fun y hy => h1 y (List.mem_cons_of_mem x hy)) h2
    constructor
    · simp [List.takeWhile_cons, hx, ht]
    · simp [List.dropWhile_cons, hx, hd]

/-! ### Name-level characterizations of the three categories -/

/-- The names of the create category: the desired names outside the existing
names, in input order. -/
theorem creates_names_eq (d : List Secret) (e : List ExistingSecret) (pk : PublicKeyResponse) :
    ((categorize_secrets (SecretsManager.new d e pk)).1.map fun s => s.name) =
      (d.map fun s => s.name).filter
        (fun n => !decide (n ∈ e.map fun ex => ex.name)) := by
  rw [creates_eq, List.map_map, List.filter_map]
  rfl

/-- The names of the update category: the desired names inside the existing
names, in input order. -/
theorem updates_names_eq (d : List Secret) (e : List ExistingSecret) (pk : PublicKeyResponse) :
    ((categorize_secrets (SecretsManager.new d e pk)).2.1.map fun s => s.name) =
      (d.map fun s => s.name).filter (fun n => decide (n ∈ e.map fun ex => ex.name)) := by
  rw [updates_eq, List.map_map, List.filter_map]
  rfl

/-- Membership in a name-filtered list of names. -/
theorem mem_filter_names (l : List String) (q : String → Bool) (n : String) :
    n ∈ l.filter q ↔ n ∈ l ∧ q n = true := by
  exact List.mem_filter

/-- A name is in the create category iff it is a desired name absent from the
existing names. -/
theorem mem_creates_names (d : List Secret) (e : List ExistingSecret) (pk : PublicKeyResponse)
    (n : String) :
    n ∈ ((categorize_secrets (SecretsManager.new d e pk)).1.map fun s => s.name) ↔
      n ∈ d.map (fun s => s.name) ∧ n ∉ e.map (fun ex => ex.name) := by
  rw [creates_names_eq, mem_filter_names]
  simp

/-- A name is in the update category iff it is a desired name present among
the existing names. -/
theorem mem_updates_names (d : List Secret) (e : List ExistingSecret) (pk : PublicKeyResponse)
    (n : String) :
    n ∈ ((categorize_secrets (SecretsManager.new d e pk)).2.1.map fun s => s.name) ↔
      n ∈ d.map (fun s => s.name) ∧ n ∈ e.map (fun ex => ex.name) := by
  rw [updates_names_eq, mem_filter_names]
  simp

/-- A name is in the delete category iff it is an existing name absent from
the desired names. -/
theorem mem_deletes_names (d : List Secret) (e : List ExistingSecret) (pk : PublicKeyResponse)
    (n : String) :
    n ∈ (categorize_secrets (SecretsManager.new d e pk)).2.2 ↔
      n ∈ e.map (fun ex => ex.name) ∧ n ∉ d.map (fun s => s.name) := by
  rw [deletes_eq, dedupFirstAux_mem]

/-- A duplicate-free list counts each of its members once. -/
theorem count_of_nodup (l : List String) (hl : l.Nodup) (n : String) :
    l.count n = if n ∈ l then 1 else 0 := by
  by_cases h : n ∈ l
  · rw [if_pos h]
    exact List.count_eq_one_of_mem hl h
  · rw [if_neg h]
    exact List.count_eq_zero.mpr h

/-! ### The claims about the reconciliation engine -/

/-- C1: the reconciliation performed by `SecretsManager::new` (status
annotation) followed by `categorize_secrets` assigns every desired name
absent from the existing names to the create category, every desired name
present among the existing names to the update category, and every existing
name absent from the desired names to the delete category; the three
categories partition the union of desired and existing names: each name of
the union lies in exactly one category, and no name lies in two. -/
theorem claim_C1_partition (d : List Secret) (e : List ExistingSecret) (pk : PublicKeyResponse) :
    (∀ n : String,
      n ∈ ((categorize_secrets (SecretsManager.new d e pk)).1.map fun s => s.name) ↔
        n ∈ d.map (fun s => s.name) ∧ n ∉ e.map (fun ex => ex.name))
    ∧ (∀ n : String,
      n ∈ ((categorize_secrets (SecretsManager.new d e pk)).2.1.map fun s => s.name) ↔
        n ∈ d.map (fun s => s.name) ∧ n ∈ e.map (fun ex => ex.name))
    ∧ (∀ n : String,
      n ∈ (categorize_secrets (SecretsManager.new d e pk)).2.2 ↔
        n ∈ e.map (fun ex => ex.name) ∧ n ∉ d.map (fun s => s.name))
    ∧ (∀ n : String,
      ((if n ∈ ((categorize_secrets (SecretsManager.new d e pk)).1.map fun s => s.name)
          then 1 else 0)
        + (if n ∈ ((categorize_secrets (SecretsManager.new d e pk)).2.1.map fun s => s.name)
          then 1 else 0)
        + (if n ∈ (categorize_secrets (SecretsManager.new d e pk)).2.2 then 1 else 0) : Nat) =
        if n ∈ d.map (fun s => s.name) ∨ n ∈ e.map (fun ex => ex.name) then 1 else 0) := by
  refine ⟨mem_creates_names d e pk, mem_updates_names d e pk, mem_deletes_names d e pk, ?_⟩
  intro n
  have h1 := mem_creates_names d e pk n
  have h2 := mem_updates_names d e pk n
  have h3 := mem_deletes_names d e pk n
  by_cases hd : n ∈ d.map (fun s => s.name) <;> by_cases he : n ∈ e.map (fun ex => ex.name)
  · rw [if_neg (fun hc => (h1.mp hc).2 he), if_pos (h2.mpr ⟨hd, he⟩),
      if_neg (fun hc => (h3.mp hc).2 hd), if_pos (Or.inl hd)]
  · rw [if_pos (h1.mpr ⟨hd, he⟩), if_neg (fun hc => he (h2.mp hc).2),
      if_neg (fun hc => (h3.mp hc).2 hd), if_pos (Or.inl hd)]
  · rw [if_neg (fun hc => hd (h1.mp hc).1), if_neg (fun hc => hd (h2.mp hc).1),
      if_pos (h3.mpr ⟨he, hd⟩), if_pos (Or.inr he)]
  · rw [if_neg (fun hc => hd (h1.mp hc).1), if_neg (fun hc => hd (h2.mp hc).1),
      if_neg (fun hc => he (h3.mp hc).1), if_neg (fun hc => hc.elim hd he)]

/-- C8: a desired list holding two entries with the same name, against an
empty existing list, yields two independent create actions for that name (in
input order, values kept apart), no updates and no deletes: duplicates are
neither merged, deduplicated, nor rejected. -/
theorem claim_C8_duplicates (n v1 v2 : String) (pk : PublicKeyResponse) :
    categorize_secrets
        (SecretsManager.new
          [{ name := n, value := v1, status := none },
           { name := n, value := v2, status := none }] [] pk) =
      ([{ name := n, value := v1, status := some SecretStatus.New },
        { name := n, value := v2, status := some SecretStatus.New }], [], []) := by
  rfl

/-- Concrete fixture: an existing secret named `A`. -/
def cexExA1 : ExistingSecret :=
  { name := "A", created_at := "2024-01-01T00:00:00Z", updated_at := "2024-01-02T00:00:00Z" }

/-- Concrete fixture: a second existing secret also named `A`. -/
def cexExA2 : ExistingSecret :=
  { name := "A", created_at := "2024-02-01T00:00:00Z", updated_at := "2024-02-02T00:00:00Z" }

/-- Concrete fixture: an existing secret named `DUP`. -/
def cexExDup1 : ExistingSecret :=
  { name := "DUP", created_at := "2024-03-01T00:00:00Z", updated_at := "2024-03-02T00:00:00Z" }

/-- Concrete fixture: a second existing secret also named `DUP`. -/
def cexExDup2 : ExistingSecret :=
  { name := "DUP", created_at := "2024-04-01T00:00:00Z", updated_at := "2024-04-02T00:00:00Z" }

/-- Concrete fixture: a public-key response whose key decodes to 32 zero
bytes (valid length). -/
def cexPk : PublicKeyResponse :=
  { key_id := "key-1", key := "AAAAAAAAAAAAAAAAAAAAAAAAAAAAAAAAAAAAAAAAAAA=" }

/-- C5 (counterexample): the claim reads the existing pass as emitting one
delete per existing entry whose name is not in the desired list.  With two
existing entries both named `A` and an empty desired list, both entries'
names are outside the desired list, so the claim emits two deletes — but the
code's membership test runs against the already-extended secrets list, so
the second entry is skipped and only one delete is produced. -/
theorem claim_C5_counterexample :
    (categorize_secrets (SecretsManager.new [] [cexExA1, cexExA2] cexPk)).2.2 = ["A"] ∧
      (categorize_secrets (SecretsManager.new [] [cexExA1, cexExA2] cexPk)).2.2 ≠ ["A", "A"] := by
  exact ⟨rfl, by decide⟩

/-- C5 (amended): reconciliation processes the desired list in input order —
each desired entry whose name is among the existing names goes to the update
category, retagged `Existing`, the others to the create category, retagged
`New`, both categories preserving input order and carrying each occurrence
independently — and then processes the existing list in input order,
emitting a delete for each existing entry whose name is neither among the
desired names nor equal to an earlier-emitted delete name (duplicate
existing names collapse to a single delete).  Matching is exact string
equality, and the computation is a pure function of the two input lists. -/
theorem claim_C5_processing_order (d : List Secret) (e : List ExistingSecret)
    (pk : PublicKeyResponse) :
    (categorize_secrets (SecretsManager.new d e pk)).1 =
        (d.filter (fun s => !decide (s.name ∈ e.map fun ex => ex.name))).map
          (fun s => { s with status := some SecretStatus.New })
    ∧ (categorize_secrets (SecretsManager.new d e pk)).2.1 =
        (d.filter (fun s => decide (s.name ∈ e.map fun ex => ex.name))).map
          (fun s => { s with status := some SecretStatus.Existing })
    ∧ (categorize_secrets (SecretsManager.new d e pk)).2.2 =
        dedupFirstAux (d.map fun s => s.name) (e.map fun ex => ex.name) :=
  ⟨creates_eq d e pk, updates_eq d e pk, deletes_eq d e pk⟩

/-- C7 (counterexample): the claim reads `reconcile([], E)` as yielding one
delete per entry of `E`.  With `E` holding two entries both named `DUP`,
that would be two deletes; the code produces a single delete. -/
theorem claim_C7_counterexample :
    (categorize_secrets (SecretsManager.new [] [cexExDup1, cexExDup2] cexPk)).2.2.length = 1 ∧
      (categorize_secrets (SecretsManager.new [] [cexExDup1, cexExDup2] cexPk)).2.2.length ≠
        [cexExDup1, cexExDup2].length := by
  exact ⟨rfl, by decide⟩

/-- C7 (amended): reconciling empty against empty yields no actions;
reconciling any desired list against an empty existing list yields only
create actions, one per desired entry in order; reconciling an empty desired
list against an existing list yields only delete actions, one per distinct
existing name (first occurrences, in input order) — for an existing list
with pairwise-distinct names this is one delete per entry. -/
theorem claim_C7_base_cases :
    (∀ pk : PublicKeyResponse,
      categorize_secrets (SecretsManager.new [] [] pk) = ([], [], []))
    ∧ (∀ (d : List Secret) (pk : PublicKeyResponse),
      categorize_secrets (SecretsManager.new d [] pk) =
        (d.map (fun s => { s with status := some SecretStatus.New }), [], []))
    ∧ (∀ (e : List ExistingSecret) (pk : PublicKeyResponse),
      categorize_secrets (SecretsManager.new [] e pk) =
        ([], [], dedupFirstAux [] (e.map fun ex => ex.name))) := by
  refine ⟨fun pk => rfl, fun d pk => ?_, fun e pk => ?_⟩
  · have h1 := creates_eq d [] pk
    have h2 := updates_eq d [] pk
    have h3 := deletes_eq d [] pk
    simp only [List.map_nil] at h1 h2 h3
    have hfilter : d.filter (fun s => !decide (s.name ∈ ([] : List String))) = d := by
      refine List.filter_eq_self.mpr (fun s _ => ?_)
      simp
    have hfilter2 : d.filter (fun s => decide (s.name ∈ ([] : List String))) = [] := by
      refine List.filter_eq_nil_iff.mpr (fun s _ => ?_)
      simp
    rw [hfilter] at h1
    rw [hfilter2] at h2
    have hdel : dedupFirstAux (d.map fun s => s.name) [] = [] := rfl
    rw [hdel] at h3
    exact Prod.ext h1 (Prod.ext h2 h3)
  · have h1 := creates_eq [] e pk
    have h2 := updates_eq [] e pk
    have h3 := deletes_eq [] e pk
    simp only [List.map_nil, List.filter_nil] at h1 h2 h3
    exact Prod.ext h1 (Prod.ext h2 h3)

/-- Count of names delivered by a duplicate-free name list after filtering. -/
theorem length_filter_not_mem_eq_card_sdiff (l1 l2 : List String) (h : l1.Nodup) :
    (l1.filter fun n => !decide (n ∈ l2)).length = (l1.toFinset \ l2.toFinset).card := by
  rw [← List.toFinset_card_of_nodup (h.filter _)]
  congr 1
  ext n
  simp [List.mem_filter, Finset.mem_sdiff]

/-- Count of names shared by two duplicate-free name lists via filtering. -/
theorem length_filter_mem_eq_card_inter (l1 l2 : List String) (h : l1.Nodup) :
    (l1.filter fun n => decide (n ∈ l2)).length = (l1.toFinset ∩ l2.toFinset).card := by
  rw [← List.toFinset_card_of_nodup (h.filter _)]
  congr 1
  ext n
  simp [List.mem_filter, Finset.mem_inter]

/-- C4: for desired and existing name sets (duplicate-free name lists) `D`
and `E`, reconciliation produces exactly `|D \ E|` create actions, exactly
`|D ∩ E|` update actions and exactly `|E \ D|` delete actions, and every
name of `D ∪ E` appears in exactly one produced action (counting one
occurrence across the concatenation of all produced action names). -/
theorem claim_C4_counts (d : List Secret) (e : List ExistingSecret) (pk : PublicKeyResponse)
    (hd : (d.map fun s => s.name).Nodup) (he : (e.map fun ex => ex.name).Nodup) :
    (categorize_secrets (SecretsManager.new d e pk)).1.length =
        ((d.map fun s => s.name).toFinset \ (e.map fun ex => ex.name).toFinset).card
    ∧ (categorize_secrets (SecretsManager.new d e pk)).2.1.length =
        ((d.map fun s => s.name).toFinset ∩ (e.map fun ex => ex.name).toFinset).card
    ∧ (categorize_secrets (SecretsManager.new d e pk)).2.2.length =
        ((e.map fun ex => ex.name).toFinset \ (d.map fun s => s.name).toFinset).card
    ∧ (∀ n, n ∈ d.map (fun s => s.name) ∨ n ∈ e.map (fun ex => ex.name) →
        ((((categorize_secrets (SecretsManager.new d e pk)).1.map fun s => s.name)
          ++ ((categorize_secrets (SecretsManager.new d e pk)).2.1.map fun s => s.name)
          ++ (categorize_secrets (SecretsManager.new d e pk)).2.2).count n = 1)) := by
  have hclen : (categorize_secrets (SecretsManager.new d e pk)).1.length =
      ((d.map fun s => s.name).filter fun n => !decide (n ∈ e.map fun ex => ex.name)).length := by
    rw [← creates_names_eq d e pk, List.length_map]
  have hulen : (categorize_secrets (SecretsManager.new d e pk)).2.1.length =
      ((d.map fun s => s.name).filter fun n => decide (n ∈ e.map fun ex => ex.name)).length := by
    rw [← updates_names_eq d e pk, List.length_map]
  have hdlen : (categorize_secrets (SecretsManager.new d e pk)).2.2.length =
      ((e.map fun ex => ex.name).filter fun n => !decide (n ∈ d.map fun s => s.name)).length := by
    rw [deletes_eq, dedupFirstAux_of_nodup _ he]
  refine ⟨?_, ?_, ?_, ?_⟩
  · rw [hclen, length_filter_not_mem_eq_card_sdiff _ _ hd]
  · rw [hulen, length_filter_mem_eq_card_inter _ _ hd]
  · rw [hdlen, length_filter_not_mem_eq_card_sdiff _ _ he]
  · intro n hn
    rw [List.count_append, List.count_append]
    have hcnames : ((categorize_secrets (SecretsManager.new d e pk)).1.map fun s => s.name) =
        (d.map fun s => s.name).filter fun n => !decide (n ∈ e.map fun ex => ex.name) :=
      creates_names_eq d e pk
    have hunames : ((categorize_secrets (SecretsManager.new d e pk)).2.1.map fun s => s.name) =
        (d.map fun s => s.name).filter fun n => decide (n ∈ e.map fun ex => ex.name) :=
      updates_names_eq d e pk
    have hdnames : (categorize_secrets (SecretsManager.new d e pk)).2.2 =
        (e.map fun ex => ex.name).filter fun n => !decide (n ∈ d.map fun s => s.name) := by
      rw [deletes_eq, dedupFirstAux_of_nodup _ he]
    rw [hcnames, hunames, hdnames,
      count_of_nodup _ (hd.filter _) n, count_of_nodup _ (hd.filter _) n,
      count_of_nodup _ (he.filter _) n]
    by_cases hdm : n ∈ d.map (fun s => s.name) <;> by_cases hem : n ∈ e.map (fun ex => ex.name)
    · rw [if_neg (fun hc => by have h := (List.mem_filter.mp hc).2; simp [hem] at h),
        if_pos (List.mem_filter.mpr ⟨hdm, by simp [hem]⟩),
        if_neg (fun hc => by have h := (List.mem_filter.mp hc).2; simp [hdm] at h)]
    · rw [if_pos (List.mem_filter.mpr ⟨hdm, by simp [hem]⟩),
        if_neg (fun hc => by have h := (List.mem_filter.mp hc).2; simp [hem] at h),
        if_neg (fun hc => hem (List.mem_filter.mp hc).1)]
    · rw [if_neg (fun hc => hdm (List.mem_filter.mp hc).1),
        if_neg (fun hc => hdm (List.mem_filter.mp hc).1),
        if_pos (List.mem_filter.mpr ⟨hem, by simp [hdm]⟩)]
    · exact absurd hn (by simp [hdm, hem])

/-- Concrete fixture: desired list `[A, B]`. -/
def cexDesiredAB : List Secret :=
  [{ name := "A", value := "1", status := none },
   { name := "B", value := "2", status := none }]

/-- Concrete fixture: existing list `[B, C]`. -/
def cexExistingBC : List ExistingSecret :=
  [{ name := "B", created_at := "t1", updated_at := "t2" },
   { name := "C", created_at := "t3", updated_at := "t4" }]

/-- Witness for C4 at `desired = [A, B]`, `existing = [B, C]`: one create,
and the shared name `B` appears exactly once across the produced actions. -/
theorem claim_C4_counts_witness :
    (categorize_secrets (SecretsManager.new cexDesiredAB cexExistingBC cexPk)).1.length =
      ((cexDesiredAB.map fun s => s.name).toFinset \
        (cexExistingBC.map fun ex => ex.name).toFinset).card
    ∧ ((categorize_secrets (SecretsManager.new cexDesiredAB cexExistingBC cexPk)).1.map
          (fun s => s.name)
        ++ ((categorize_secrets (SecretsManager.new cexDesiredAB cexExistingBC cexPk)).2.1.map
          (fun s => s.name)
        ++ (categorize_secrets
            (SecretsManager.new cexDesiredAB cexExistingBC cexPk)).2.2)).count "B" = 1 := by
  refine ⟨?_, ?_⟩
  · exact (claim_C4_counts cexDesiredAB cexExistingBC cexPk (by decide) (by decide)).1
  · exact (claim_C4_counts cexDesiredAB cexExistingBC cexPk (by decide) (by decide)).2.2.2
      "B" (by decide)

/-! ### Lemmas about `new`-built managers and `get_secret_details` -/

/-- Every secret held by a freshly built manager carries a status. -/
theorem new_status_isSome (d : List Secret) (e : List ExistingSecret) (pk : PublicKeyResponse) :
    ∀ s ∈ (SecretsManager.new d e pk).secrets, s.status.isSome = true := by
  intro s hs
  rw [new_secrets_eq] at hs
  rcases List.mem_append.mp hs with h | h
  · obtain ⟨t, _, rfl⟩ := List.mem_map.mp h
    rw [Option.isSome_iff_exists]
    exact ⟨_, annotate_status e t⟩
  · rw [(delTail_mem e _ s h).1]
    rfl

/-- In a freshly built manager a `Deleted` secret always stores the empty
value (only the appended entries are `Deleted`). -/
theorem new_deleted_value (d : List Secret) (e : List ExistingSecret) (pk : PublicKeyResponse) :
    ∀ s ∈ (SecretsManager.new d e pk).secrets,
      s.status = some SecretStatus.Deleted → s.value = "" := by
  intro s hs hdel
  rw [new_secrets_eq] at hs
  rcases List.mem_append.mp hs with h | h
  · obtain ⟨t, _, rfl⟩ := List.mem_map.mp h
    rw [annotate_status] at hdel
    split at hdel <;> simp_all
  · exact (delTail_mem e _ s h).2.1

/-- Unfolding of `get_secret_details` at a present index with a present
status. -/
theorem get_secret_details_of_get? (m : SecretsManager) (i : Nat) (s : Secret)
    (st : SecretStatus) (hget : m.secrets.get? i = some s) (hst : s.status = some st) :
    get_secret_details m i = Except.ok (some
      { name := s.name
        value := if st = SecretStatus.Deleted then "Unknown (Deleted)" else s.value
        created_at :=
          match m.existing_secrets.find? (fun t => t.name == s.name) with
          | none => "N/A"
          | some t => t.created_at
        updated_at :=
          match m.existing_secrets.find? (fun t => t.name == s.name) with
          | none => "N/A"
          | some t => t.updated_at
        status := st }) := by
  unfold get_secret_details
  rw [hget]
  simp only [hst, Option.some.injEq]

/-- `get_secret_details` at an absent index. -/
theorem get_secret_details_of_none (m : SecretsManager) (i : Nat)
    (hget : m.secrets.get? i = none) :
    get_secret_details m i = Except.ok none := by
  unfold get_secret_details
  rw [hget]

/-- C10: after `SecretsManager::new` every held secret has a `Some` status;
the list is the desired secrets annotated in their original order, followed
by one appended entry — `Deleted` status, empty stored value — per distinct
existing-only name in existing order; consequently the status `expect`
inside `get_secret_details` can never fire on a manager built by `new`. -/
theorem claim_C10_construction (d : List Secret) (e : List ExistingSecret)
    (pk : PublicKeyResponse) :
    (∀ s ∈ (SecretsManager.new d e pk).secrets, s.status.isSome = true)
    ∧ (SecretsManager.new d e pk).secrets.take d.length = d.map (annotate e)
    ∧ ((SecretsManager.new d e pk).secrets.drop d.length).map (fun s => s.name) =
        dedupFirstAux (d.map fun s => s.name) (e.map fun ex => ex.name)
    ∧ (∀ s ∈ (SecretsManager.new d e pk).secrets.drop d.length,
        s.status = some SecretStatus.Deleted ∧ s.value = "")
    ∧ (∀ i : Nat, ∃ r, get_secret_details (SecretsManager.new d e pk) i = Except.ok r) := by
  have hlen : (d.map (annotate e)).length = d.length := List.length_map d (annotate e)
  have htake : (SecretsManager.new d e pk).secrets.take d.length = d.map (annotate e) := by
    rw [new_secrets_eq, ← hlen, List.take_left]
  have hdrop : (SecretsManager.new d e pk).secrets.drop d.length =
      delTail (d.map fun s => s.name) e := by
    rw [new_secrets_eq, ← hlen, List.drop_left]
  refine ⟨new_status_isSome d e pk, htake, ?_, ?_, ?_⟩
  · rw [hdrop, delTail_map_name]
  · intro s hs
    rw [hdrop] at hs
    exact ⟨(delTail_mem e _ s hs).1, (delTail_mem e _ s hs).2.1⟩
  · intro i
    rcases hget : (SecretsManager.new d e pk).secrets.get? i with _ | s
    · exact ⟨none, get_secret_details_of_none _ i hget⟩
    · have hmem : s ∈ (SecretsManager.new d e pk).secrets := List.get?_mem hget
      obtain ⟨st, hst⟩ := Option.isSome_iff_exists.mp (new_status_isSome d e pk s hmem)
      exact ⟨_, get_secret_details_of_get? _ i s st hget hst⟩

/-- Witness for C10 at `desired = [A, B]`, `existing = [B, C]`: the appended
entry for `C` carries a status, the first two entries are the annotated
desired list, and the appended entry is `Deleted` with empty value. -/
theorem claim_C10_construction_witness :
    ({ name := "C", value := "", status := some SecretStatus.Deleted } : Secret).status.isSome
        = true
    ∧ (SecretsManager.new cexDesiredAB cexExistingBC cexPk).secrets.take 2 =
        cexDesiredAB.map (annotate cexExistingBC)
    ∧ ({ name := "C", value := "", status := some SecretStatus.Deleted } : Secret).value = "" := by
  have h := claim_C10_construction cexDesiredAB cexExistingBC cexPk
  refine ⟨h.1 _ ?_, h.2.1, (h.2.2.2.1 _ ?_).2⟩
  · decide
  · decide

/-- C9: on a manager built by `new`, `get_secret_details i` returns `None`
exactly when `i` is at or past the end of the secrets list; when it returns
details for a secret whose status is `Deleted`, the value field is the
redaction string `"Unknown (Deleted)"` and not the stored value (which is
empty for such entries), while for `New` and `Existing` secrets it is the
stored plaintext value. -/
theorem claim_C9_details (d : List Secret) (e : List ExistingSecret) (pk : PublicKeyResponse)
    (i : Nat) :
    (get_secret_details (SecretsManager.new d e pk) i = Except.ok none ↔
      (SecretsManager.new d e pk).secrets.length ≤ i)
    ∧ (∀ det : SecretDetails,
        get_secret_details (SecretsManager.new d e pk) i = Except.ok (some det) →
        ∃ s : Secret, (SecretsManager.new d e pk).secrets.get? i = some s ∧
          s.status = some det.status ∧
          (det.status = SecretStatus.Deleted →
            det.value = "Unknown (Deleted)" ∧ s.value = "" ∧ det.value ≠ s.value) ∧
          (det.status ≠ SecretStatus.Deleted → det.value = s.value)) := by
  constructor
  · constructor
    · intro hok
      by_contra hlt
      push_neg at hlt
      rcases hget : (SecretsManager.new d e pk).secrets.get? i with _ | s
      · exact absurd (List.get?_eq_none.mp hget) (by omega)
      · have hmem : s ∈ (SecretsManager.new d e pk).secrets := List.get?_mem hget
        obtain ⟨st, hst⟩ := Option.isSome_iff_exists.mp (new_status_isSome d e pk s hmem)
        rw [get_secret_details_of_get? _ i s st hget hst] at hok
        simp at hok
    · intro hle
      exact get_secret_details_of_none _ i (List.get?_eq_none.mpr hle)
  · intro det hdet
    rcases hget : (SecretsManager.new d e pk).secrets.get? i with _ | s
    · rw [get_secret_details_of_none _ i hget] at hdet
      simp at hdet
    · have hmem : s ∈ (SecretsManager.new d e pk).secrets := List.get?_mem hget
      obtain ⟨st, hst⟩ := Option.isSome_iff_exists.mp (new_status_isSome d e pk s hmem)
      rw [get_secret_details_of_get? _ i s st hget hst] at hdet
      have hdeteq := (Option.some.injEq _ _).mp ((Except.ok.injEq _ _).mp hdet)
      refine ⟨s, rfl, ?_, ?_, ?_⟩
      · rw [hst, ← hdeteq]
      · intro hdel
        have hstdel : st = SecretStatus.Deleted := by
          rw [← hdeteq] at hdel
          exact hdel
        have hval : det.value = "Unknown (Deleted)" := by
          rw [← hdeteq, if_pos hstdel]
        have hsval : s.value = "" := by
          refine new_deleted_value d e pk s hmem ?_
          rw [hst, hstdel]
        refine ⟨hval, hsval, ?_⟩
        rw [hval, hsval]
        decide
      · intro hnd
        have hstnd : st ≠ SecretStatus.Deleted := by
          rw [← hdeteq] at hnd
          exact hnd
        rw [← hdeteq, if_neg hstnd]

/-- Witness for C9 at `desired = [A, B]`, `existing = [B, C]`: index 5 is
out of range, and the details returned at index 2 (the appended `Deleted`
entry for `C`) redact the value. -/
theorem claim_C9_details_witness :
    get_secret_details (SecretsManager.new cexDesiredAB cexExistingBC cexPk) 5 = Except.ok none
    ∧ ({ name := "C", value := "Unknown (Deleted)", created_at := "t3", updated_at := "t4",
          status := SecretStatus.Deleted } : SecretDetails).value = "Unknown (Deleted)" := by
  refine ⟨(claim_C9_details cexDesiredAB cexExistingBC cexPk 5).1.mpr (by decide), ?_⟩
  obtain ⟨s, hs, hst, hdel, hnd⟩ :=
    (claim_C9_details cexDesiredAB cexExistingBC cexPk 2).2
      { name := "C", value := "Unknown (Deleted)", created_at := "t3", updated_at := "t4",
        status := SecretStatus.Deleted } (by rfl)
  exact (hdel rfl).1

/-! ### The claims about the orchestrator and the key decode -/

/-- Concrete fixture: a sealing function for one run (the sealed box is
opaque; only which names are called, in which order, matters). -/
def cexSeal : String → String := fun v => v ++ "-sealed"

/-- Concrete fixture: a store that refuses the upsert of `B` and accepts
everything else. -/
def cexStoreFailB : RemoteStore :=
  { upsert_ok := fun n => !(n == "B"), delete_ok := fun _ => true }

/-- Concrete fixture: a store that accepts every call. -/
def cexStoreOk : RemoteStore :=
  { upsert_ok := fun _ => true, delete_ok := fun _ => true }

/-- C6: `manage_secrets` issues its calls in two phases: the initial block
of the trace consists of PUT calls and is an initial segment of the planned
create-then-update calls in reconciliation order, everything after that
block is a DELETE call forming an initial segment of the planned deletes in
order, and a DELETE appears only if the whole upsert phase completed (every
planned create and update call was issued). -/
theorem claim_C6_phase_order (sealEnc : String → String) (store : RemoteStore)
    (m : SecretsManager) :
    ((manage_secrets sealEnc store m).1.takeWhile (fun c => c.isUpsert)) <+:
        (((categorize_secrets m).1 ++ (categorize_secrets m).2.1).map
          (upsertCall sealEnc m.public_key.key_id))
    ∧ (∀ c ∈ (manage_secrets sealEnc store m).1.dropWhile (fun c => c.isUpsert),
        c.isUpsert = false)
    ∧ ((manage_secrets sealEnc store m).1.dropWhile (fun c => c.isUpsert) ≠ [] →
        (manage_secrets sealEnc store m).1.takeWhile (fun c => c.isUpsert) =
          (((categorize_secrets m).1 ++ (categorize_secrets m).2.1).map
            (upsertCall sealEnc m.public_key.key_id)))
    ∧ ((manage_secrets sealEnc store m).1.dropWhile (fun c => c.isUpsert)) <+:
        ((categorize_secrets m).2.2.map ApiCall.delete) := by
  rcases hdec : decode_public_key m.public_key with err | pk
  · have hm : manage_secrets sealEnc store m = ([], false) := by
      unfold manage_secrets
      rw [hdec]
    rw [hm]
    refine ⟨List.nil_prefix, ?_, ?_, List.nil_prefix⟩
    · intro c hc
      simp at hc
    · intro hne
      exact absurd rfl hne
  · have hup := upsert_secrets_all_upsert sealEnc store m.public_key.key_id
      ((categorize_secrets m).1 ++ (categorize_secrets m).2.1)
    by_cases hok : (upsert_secrets sealEnc store m.public_key.key_id
        ((categorize_secrets m).1 ++ (categorize_secrets m).2.1)).2 = true
    · have hm : manage_secrets sealEnc store m =
          ((upsert_secrets sealEnc store m.public_key.key_id
              ((categorize_secrets m).1 ++ (categorize_secrets m).2.1)).1
            ++ (delete_secrets store (categorize_secrets m).2.2).1,
           (delete_secrets store (categorize_secrets m).2.2).2) := by
        unfold manage_secrets
        rw [hdec]
        dsimp only
        rw [if_pos hok]
      have hsplit := takeWhile_dropWhile_split (fun c => c.isUpsert)
        (upsert_secrets sealEnc store m.public_key.key_id
          ((categorize_secrets m).1 ++ (categorize_secrets m).2.1)).1
        (delete_secrets store (categorize_secrets m).2.2).1
        (fun c hc => hup c hc)
        (fun c hc => delete_secrets_all_delete store (categorize_secrets m).2.2 c hc)
      rw [hm]
      dsimp only
      rw [hsplit.1, hsplit.2]
      refine ⟨?_, ?_, ?_, ?_⟩
      · rw [upsert_secrets_trace_of_ok sealEnc store m.public_key.key_id _ hok]
      · exact fun c hc => delete_secrets_all_delete store (categorize_secrets m).2.2 c hc
      · intro _
        rw [upsert_secrets_trace_of_ok sealEnc store m.public_key.key_id _ hok]
      · exact delete_secrets_trace_initial store (categorize_secrets m).2.2
    · have hm : manage_secrets sealEnc store m =
          ((upsert_secrets sealEnc store m.public_key.key_id
              ((categorize_secrets m).1 ++ (categorize_secrets m).2.1)).1, false) := by
        unfold manage_secrets
        rw [hdec]
        dsimp only
        rw [if_neg hok]
      have hsplit := takeWhile_dropWhile_split (fun c => c.isUpsert)
        (upsert_secrets sealEnc store m.public_key.key_id
          ((categorize_secrets m).1 ++ (categorize_secrets m).2.1)).1
        [] (fun c hc => hup c hc) (fun c hc => absurd hc (by simp))
      rw [List.append_nil] at hsplit
      rw [hm]
      dsimp only
      rw [hsplit.1, hsplit.2]
      exact ⟨upsert_secrets_trace_initial sealEnc store m.public_key.key_id _,
        fun c hc => absurd hc (by simp), fun hne => absurd rfl hne, List.nil_prefix⟩

/-- Witness for C6: with the all-accepting store on `desired = [A, B]`,
`existing = [B, C]`, the delete block is non-empty, so the upsert block of
the trace is exactly the planned create-then-update calls. -/
theorem claim_C6_phase_order_witness :
    (manage_secrets cexSeal cexStoreOk
        (SecretsManager.new cexDesiredAB cexExistingBC cexPk)).1.takeWhile
        (fun c => c.isUpsert) =
      (((categorize_secrets (SecretsManager.new cexDesiredAB cexExistingBC cexPk)).1
          ++ (categorize_secrets (SecretsManager.new cexDesiredAB cexExistingBC cexPk)).2.1).map
        (upsertCall cexSeal
          (SecretsManager.new cexDesiredAB cexExistingBC cexPk).public_key.key_id)) := by
  exact (claim_C6_phase_order cexSeal cexStoreOk
    (SecretsManager.new cexDesiredAB cexExistingBC cexPk)).2.2.1 (by decide)

/-- C2 (counterexample): on `desired = [A, B]`, `existing = [B, C]` with a
store that refuses the update of `B`, the planned delete of `C` is never
attempted and the run returns the error: a failed call does prevent
subsequent actions. -/
theorem claim_C2_counterexample :
    "C" ∈ (categorize_secrets (SecretsManager.new cexDesiredAB cexExistingBC cexPk)).2.2
    ∧ ApiCall.delete "C" ∉
        (manage_secrets cexSeal cexStoreFailB
          (SecretsManager.new cexDesiredAB cexExistingBC cexPk)).1
    ∧ (manage_secrets cexSeal cexStoreFailB
        (SecretsManager.new cexDesiredAB cexExistingBC cexPk)).2 = false := by
  decide

/-- C2 (amended): `manage_secrets` is fail-fast, not partial-failure
tolerant: the first refused call ends the run.  If some create/update call
is the first to fail, the trace is exactly the calls up to and including it
(no later upsert and no delete is attempted) and the run reports failure;
if every create/update call succeeds and some delete call is the first to
fail, the trace is all planned upserts followed by the deletes up to and
including the failing one, and the run reports failure. -/
theorem claim_C2_fail_fast (sealEnc : String → String) (store : RemoteStore)
    (m : SecretsManager) :
    (∀ pk : List Nat, decode_public_key m.public_key = Except.ok pk →
      ∀ (xs : List Secret) (f : Secret) (ys : List Secret),
        (categorize_secrets m).1 ++ (categorize_secrets m).2.1 = xs ++ f :: ys →
        (∀ x ∈ xs, store.upsert_ok x.name = true) → store.upsert_ok f.name = false →
        manage_secrets sealEnc store m =
          ((xs ++ [f]).map (upsertCall sealEnc m.public_key.key_id), false))
    ∧ (∀ pk : List Nat, decode_public_key m.public_key = Except.ok pk →
      ∀ (xs : List String) (n : String) (ys : List String),
        (categorize_secrets m).2.2 = xs ++ n :: ys →
        (∀ x ∈ (categorize_secrets m).1 ++ (categorize_secrets m).2.1,
          store.upsert_ok x.name = true) →
        (∀ x ∈ xs, store.delete_ok x = true) → store.delete_ok n = false →
        manage_secrets sealEnc store m =
          (((categorize_secrets m).1 ++ (categorize_secrets m).2.1).map
              (upsertCall sealEnc m.public_key.key_id)
            ++ (xs ++ [n]).map ApiCall.delete, false)) := by
  constructor
  · intro pk hdec xs f ys hsplit hall hf
    have hfail := upsert_secrets_fail_fast sealEnc store m.public_key.key_id xs f ys hall hf
    unfold manage_secrets
    rw [hdec]
    dsimp only
    rw [hsplit, hfail, if_neg (by simp)]
  · intro pk hdec xs n ys hsplit hupall hxs hn
    have hok : (upsert_secrets sealEnc store m.public_key.key_id
        ((categorize_secrets m).1 ++ (categorize_secrets m).2.1)).2 = true := by
      rw [upsert_secrets_ok]
      exact List.all_eq_true.mpr (fun x hx => hupall x hx)
    have htr := upsert_secrets_trace_of_ok sealEnc store m.public_key.key_id _ hok
    have hfail := delete_secrets_fail_fast store xs n ys hxs hn
    unfold manage_secrets
    rw [hdec]
    dsimp only
    rw [if_pos hok, hsplit, hfail, htr]

/-- Witness for C2 (amended): on `desired = [A, B]`, `existing = [B, C]`
with the store refusing `B`, the run stops right after the refused update of
`B`: the create of `A` and the update of `B` are the only calls made. -/
theorem claim_C2_fail_fast_witness :
    manage_secrets cexSeal cexStoreFailB
        (SecretsManager.new cexDesiredAB cexExistingBC cexPk) =
      ([ApiCall.upsert "A" "1-sealed" "key-1", ApiCall.upsert "B" "2-sealed" "key-1"], false) := by
  have h := (claim_C2_fail_fast cexSeal cexStoreFailB
      (SecretsManager.new cexDesiredAB cexExistingBC cexPk)).1
    (List.replicate 32 0) (by rfl)
    [{ name := "A", value := "1", status := some SecretStatus.New }]
    { name := "B", value := "2", status := some SecretStatus.Existing }
    [] (by decide) (by decide) (by decide)
  rw [h]
  rfl

/-- Concrete fixture: a public-key response whose key decodes to 16 bytes. -/
def cexPk16 : PublicKeyResponse :=
  { key_id := "key-1", key := "AAAAAAAAAAAAAAAAAAAAAA==" }

/-- Concrete fixture: a public-key response whose key decodes to 33 bytes. -/
def cexPk33 : PublicKeyResponse :=
  { key_id := "key-1", key := "AAAAAAAAAAAAAAAAAAAAAAAAAAAAAAAAAAAAAAAAAAAA" }

/-- Concrete fixture: a public-key response whose key decodes to 0 bytes. -/
def cexPk0 : PublicKeyResponse :=
  { key_id := "key-1", key := "" }

/-- Whether a decode failure is the modelled `unwrap` panic rather than an
error value returned to the caller. -/
def DecodeFailure.isPanicFailure : DecodeFailure → Bool
  | DecodeFailure.unwrapNone => true
  | DecodeFailure.appError _ => false

/-- C3 (counterexample): on a key of 16 base64-decoded bytes the decode step
does not produce any returned error value (there is no `InvalidKey` variant
in the program's error type at all): `PublicKey::from_slice` yields `None`
and the `.unwrap()` panics, modelled as the `unwrapNone` marker. -/
theorem claim_C3_counterexample :
    base64Decode cexPk16.key = Except.ok (List.replicate 16 0)
    ∧ decode_public_key cexPk16 = Except.error DecodeFailure.unwrapNone
    ∧ DecodeFailure.unwrapNone.isPanicFailure = true := by
  exact ⟨rfl, rfl, rfl⟩

/-- C3 (amended): for every key whose base64 decoding succeeds with a byte
length other than 32 (in particular 0, 16 and 33), `decode_public_key`
aborts with the modelled `unwrap`-on-`None` panic — not a typed `InvalidKey`
error, which does not exist in the program's error taxonomy — and the
failure is fatal for the run and happens once, before any API call is
attempted: `manage_secrets` issues no call and reports failure. -/
theorem claim_C3_bad_key_length (kid key : String) (bytes : List Nat)
    (hdec : base64Decode key = Except.ok bytes) (hlen : bytes.length ≠ 32) :
    decode_public_key { key_id := kid, key := key } = Except.error DecodeFailure.unwrapNone
    ∧ ∀ (sealEnc : String → String) (store : RemoteStore) (d : List Secret)
        (e : List ExistingSecret),
        manage_secrets sealEnc store
            (SecretsManager.new d e { key_id := kid, key := key }) = ([], false) := by
  have hk : decode_public_key { key_id := kid, key := key } =
      Except.error DecodeFailure.unwrapNone := by
    unfold decode_public_key publicKeyFromSlice
    rw [show base64Decode ({ key_id := kid, key := key } : PublicKeyResponse).key =
      Except.ok bytes from hdec]
    dsimp only
    rw [if_neg hlen]
  refine ⟨hk, fun sealEnc store d e => ?_⟩
  unfold manage_secrets
  rw [new_public_key, hk]

/-- Witness for C3 at byte lengths 0, 16 and 33: the decode panics and the
run makes no call. -/
theorem claim_C3_bad_key_length_witness :
    decode_public_key cexPk0 = Except.error DecodeFailure.unwrapNone
    ∧ decode_public_key cexPk16 = Except.error DecodeFailure.unwrapNone
    ∧ decode_public_key cexPk33 = Except.error DecodeFailure.unwrapNone
    ∧ manage_secrets cexSeal cexStoreOk
        (SecretsManager.new cexDesiredAB cexExistingBC cexPk16) = ([], false) := by
  have h0 := claim_C3_bad_key_length "key-1" "" [] (by rfl) (by decide)
  have h16 := claim_C3_bad_key_length "key-1" "AAAAAAAAAAAAAAAAAAAAAA=="
    (List.replicate 16 0) (by rfl) (by decide)
  have h33 := claim_C3_bad_key_length "key-1" "AAAAAAAAAAAAAAAAAAAAAAAAAAAAAAAAAAAAAAAAAAAA"
    (List.replicate 33 0) (by rfl) (by decide)
  exact ⟨h0.1, h16.1, h33.1, h16.2 cexSeal cexStoreOk cexDesiredAB cexExistingBC⟩

end GSM
